import Mathlib

/-!
Verification of the metric-to-batch export engine
(`plugins/outputs/cloudwatch/cloudwatch.go`, `plugins/outputs/kafka/kafka.go`).

The Go code is shallowly embedded: Go maps that the code only iterates or
looks up are modelled as association lists (one list = one iteration order),
Go slices as `List`, pointers that may be nil as `Option`, `float64` values
as `Rat` (exact arithmetic; the claims under study concern which kinds are
coerced, not rounding), and run-time panics (index out of range, slice
bounds out of range, integer division by zero, negative `make` length) as
`none` in an `Option` result.  Go's integer division and remainder truncate
toward zero, which is `Int.tdiv` / `Int.tmod`.
-/

namespace Telegraf

/-- A field value of a telegraf metric (`interface{}` in Go), tagged with its
dynamic Go type as matched by the `switch t := v.(type)` in
`BuildMetricDatum`.  Integer types carry their numeric value; `vTime`
carries the time's Unix-epoch seconds; `vString` and `vNil` are
non-numeric kinds. -/
inductive FieldValue where
  | vInt (n : Int)
  | vInt8 (n : Int)
  | vInt16 (n : Int)
  | vInt32 (n : Int)
  | vInt64 (n : Int)
  | vUInt (n : Nat)
  | vUInt8 (n : Nat)
  | vUInt16 (n : Nat)
  | vUInt32 (n : Nat)
  | vUInt64 (n : Nat)
  | vFloat32 (x : Rat)
  | vFloat64 (x : Rat)
  | vBool (b : Bool)
  | vTime (unixSec : Int)
  | vString (s : String)
  | vNil
deriving DecidableEq, Repr

/-- A telegraf metric record (`telegraf.Metric`): `Name()`, `Tags()`,
`Fields()` and `Time()`.  The two maps are modelled as association lists in
iteration order; a real Go map has unique keys, which theorems assume as a
`Nodup` hypothesis where it matters.  `time` is the record timestamp (Unix
seconds). -/
structure Metric where
  name : String
  tags : List (String × String)
  fields : List (String × FieldValue)
  time : Int
deriving DecidableEq, Repr

/-- `cloudwatch.Dimension`: a name/value pair. -/
structure Dimension where
  name : String
  value : String
deriving DecidableEq, Repr

/-- `cloudwatch.MetricDatum`: metric name, coerced numeric value, dimension
slice (entries are pointers, hence `Option`) and timestamp. -/
structure MetricDatum where
  metricName : String
  value : Rat
  dimensions : List (Option Dimension)
  timestamp : Int
deriving DecidableEq, Repr

/-- Go slice element write `s[i] = a`: panics (`none`) when `i` is out of
bounds. -/
def goSet (l : List α) (i : Nat) (a : α) : Option (List α) :=
  if i < l.length then some (l.set i a) else none

/-- Go slice expression `s[start:stop]`: panics (`none`) unless
`0 ≤ start ≤ stop ≤ len(s)`. -/
def goSlice (l : List α) (start stop : Int) : Option (List α) :=
  if 0 ≤ start ∧ start ≤ stop ∧ stop ≤ (l.length : Int) then
    some ((l.drop start.toNat).take (stop - start).toNat)
  else none

/-- `MaxDimensions` (cloudwatch.go line 194). -/
def MaxDimensions : Nat := 10

/-- The filling loop of `BuildDimensions` (cloudwatch.go lines 216-227):
walk the sorted key list; before each write, break once the index reaches
`MaxDimensions`; write `dimensions[i]` (an out-of-bounds write panics) and
advance `i`.  `mTags[k]` is the Go map read, whose zero value is `""`. -/
def fillDimensions (mTags : List (String × String)) :
    List String → List (Option Dimension) → Nat → Option (List (Option Dimension))
  | [], dims, _ => some dims
  | k :: ks, dims, i =>
    if MaxDimensions ≤ i then some dims
    else
      (goSet dims i (some ⟨k, (List.lookup k mTags).getD ""⟩)).bind
        (fun dims2 => fillDimensions mTags ks dims2 (i + 1))

/-- `BuildDimensions` (cloudwatch.go lines 192-230): allocate
`min(len(mTags), MaxDimensions)` nil slots, put the `host` tag in slot 0
when present, collect the remaining tag names, sort them ascending
(`sort.Strings`, modelled by `insertionSort`: any correct sort of the
distinct keys yields this list) and fill the remaining slots. -/
def BuildDimensions (mTags : List (String × String)) : Option (List (Option Dimension)) :=
  match List.lookup "host" mTags with
  | some host =>
    (goSet (List.replicate (min mTags.length MaxDimensions) none) 0
        (some ⟨"host", host⟩)).bind
      (fun dims2 =>
        fillDimensions mTags
          (List.insertionSort (· ≤ ·) ((mTags.map Prod.fst).filter (fun k => k ≠ "host")))
          dims2 1)
  | none =>
    fillDimensions mTags
      (List.insertionSort (· ≤ ·) ((mTags.map Prod.fst).filter (fun k => k ≠ "host")))
      (List.replicate (min mTags.length MaxDimensions) none) 0

/-- The Dimension Selector as the specification's words describe it: the
`host` tag first when present, then the remaining tag names in ascending
lexical order, truncated to `min(len(T), MaxDimensions)` entries in
total.  Defined for comparison with `BuildDimensions`. -/
def specDimensionSelector (mTags : List (String × String)) : List Dimension :=
  (match List.lookup "host" mTags with
    | some host => [⟨"host", host⟩]
    | none => []) ++
  ((List.insertionSort (· ≤ ·) ((mTags.map Prod.fst).filter (fun k => k ≠ "host"))).take
      (min mTags.length MaxDimensions -
        (match List.lookup "host" mTags with | some _ => 1 | none => 0))).map
    (fun k => ⟨k, (List.lookup k mTags).getD ""⟩)

/-- The value-coercion switch inside `BuildMetricDatum`
(cloudwatch.go lines 153-174): `case int / int32 / int64 / float64 / bool /
time.Time` produce a `float64` value; every other dynamic type falls to
`default` and is skipped (`none`). -/
def coerceValue : FieldValue → Option Rat
  | .vInt n => some (n : Rat)
  | .vInt32 n => some (n : Rat)
  | .vInt64 n => some (n : Rat)
  | .vFloat64 x => some x
  | .vBool b => some (if b then 1 else 0)
  | .vTime t => some (t : Rat)
  | _ => none

/-- `numberOfPartitions` as computed in `PartitionDatums` (cloudwatch.go
lines 124-127), with Go's truncated integer division and remainder. -/
def numberOfPartitionsInt (size len : Int) : Int :=
  if Int.tmod len size ≠ 0 then Int.tdiv len size + 1 else Int.tdiv len size

/-- Run a fallible body over a list of loop indices in order, collecting the
results; the first panic (`none`) aborts the loop. -/
def collectSome (g : Nat → Option β) : List Nat → Option (List β)
  | [] => some []
  | i :: is =>
    match g i with
    | none => none
    | some b =>
      match collectSome g is with
      | none => none
      | some bs => some (b :: bs)

/-- The body of the loop in `PartitionDatums` (cloudwatch.go lines 131-139):
`start = size*i`, `end` is `size*(i+1)` clamped to `len`, then the slice
`datums[start:end]` is taken. -/
def partitionSlice (size : Int) (datums : List α) (i : Nat) : Option (List α) :=
  goSlice datums (size * i)
    (if size * (i + 1) > (datums.length : Int) then (datums.length : Int) else size * (i + 1))

/-- `PartitionDatums` (cloudwatch.go lines 122-142).  `size = 0` makes the
Go code panic with a division by zero; a negative partition count makes
`make` panic; each loop iteration takes a slice which panics if its bounds
are invalid.  All panics are `none`. -/
def PartitionDatums (size : Int) (datums : List α) : Option (List (List α)) :=
  if size = 0 then none
  else
    let n := numberOfPartitionsInt size datums.length
    if n < 0 then none
    else collectSome (partitionSlice size datums) (List.range n.toNat)

/-- The positive-size partition function in closed form: partition `i` is
`datums[size*i : size*(i+1)]` clamped at the end, for
`i < numberOfPartitions`.  Proved below to be what `PartitionDatums`
returns whenever `1 ≤ size`. -/
def partitionOfSize (size : Nat) (datums : List α) : List (List α) :=
  (List.range (datums.length / size + if datums.length % size ≠ 0 then 1 else 0)).map
    (fun i => (datums.drop (size * i)).take size)

/-- One `cloudwatch.MetricDatum` as constructed at cloudwatch.go lines
176-181 for field `k` with coerced value `value`: the metric name is
`strings.Join([point.Name(), k], "_")`, the dimensions are
`BuildDimensions(point.Tags())` (passed in, already computed) and the
timestamp is `point.Time()`. -/
def mkMetricDatum (point : Metric) (k : String) (value : Rat)
    (dims : List (Option Dimension)) : MetricDatum :=
  { metricName := point.name ++ "_" ++ k
    value := value
    dimensions := dims
    timestamp := point.time }

/-- The loop of `BuildMetricDatum` (cloudwatch.go lines 152-184): iterate
the fields; an unsupported value shrinks the slice by one from the end
(`datums = datums[:len(datums)-1]`, a panic when the slice is already
empty); a supported value writes `datums[i]` (a panic when `i` is out of
bounds) and advances `i`. -/
def buildLoop (point : Metric) :
    List (String × FieldValue) → List (Option MetricDatum) → Nat →
      Option (List (Option MetricDatum))
  | [], datums, _ => some datums
  | (k, v) :: rest, datums, i =>
    match coerceValue v with
    | none =>
      if 1 ≤ datums.length then
        buildLoop point rest (datums.take (datums.length - 1)) i
      else none
    | some value =>
      (BuildDimensions point.tags).bind (fun dims =>
        (goSet datums i (some (mkMetricDatum point k value dims))).bind
          (fun datums2 => buildLoop point rest datums2 (i + 1)))

/-- `BuildMetricDatum` (cloudwatch.go lines 146-187): allocate one nil
slot per field and run the loop. -/
def BuildMetricDatum (point : Metric) : Option (List (Option MetricDatum)) :=
  buildLoop point point.fields (List.replicate point.fields.length none) 0

/-- The Datums the specification's words describe for one record: one per
numeric-coercible field, in field order, each carrying the selected
dimensions.  Defined for comparison with `BuildMetricDatum`. -/
def specDatums (point : Metric) : List MetricDatum :=
  point.fields.filterMap (fun kv =>
    (coerceValue kv.2).map (fun value =>
      mkMetricDatum point kv.1 value ((specDimensionSelector point.tags).map some)))

/-- `maxDatumsPerCall` (cloudwatch.go line 92). -/
def maxDatumsPerCall : Int := 20

/-- The transport loop shared by `WriteSinglePoint`'s partition loop and
`Write`'s outer loop, instrumented with the transport's behavior:
`ok i` tells whether the `i`-th `PutMetricData` call of the enclosing
`Write` succeeds.  Returns the batches handed to the transport, in
order (including the failing call), and whether the loop finished
without error. -/
def sendLoop (ok : Nat → Bool) : Nat → List β → List β × Bool
  | _, [] => ([], true)
  | i, p :: ps =>
    if ok i then
      (p :: (sendLoop ok (i + 1) ps).1, (sendLoop ok (i + 1) ps).2)
    else ([p], false)

/-- `WriteSinglePoint` (cloudwatch.go lines 89-103): build the point's
datums, partition them with `maxDatumsPerCall` and issue one
`WriteToCloudWatch` call per partition in order, returning at the first
failure.  `i` is the index of the next transport call of the enclosing
`Write`. -/
def WriteSinglePoint (ok : Nat → Bool) (i : Nat) (point : Metric) :
    Option (List (List (Option MetricDatum)) × Bool) :=
  (BuildMetricDatum point).bind (fun datums =>
    (PartitionDatums maxDatumsPerCall datums).bind (fun parts =>
      some (sendLoop ok i parts)))

/-- `Write` (cloudwatch.go lines 75-84): process the metrics in order,
one `WriteSinglePoint` each, returning at the first error.  The result
collects the transport calls issued and whether the write succeeded
(`false`: the first failure's error was returned to the caller). -/
def CloudWatchWrite (ok : Nat → Bool) :
    Nat → List Metric → Option (List (List (Option MetricDatum)) × Bool)
  | _, [] => some ([], true)
  | i, m :: ms =>
    (WriteSinglePoint ok i m).bind (fun res =>
      if res.2 then
        (CloudWatchWrite ok (i + res.1.length) ms).bind (fun res2 =>
          some (res.1 ++ res2.1, res2.2))
      else some res)

/-- The full stream of transport batches one `Write` call issues when no
call fails: each record's supported-field datums, partitioned into
chunks of 20, concatenated in record order. -/
def writeBatches (metrics : List Metric) : List (List (Option MetricDatum)) :=
  (metrics.map (fun m => partitionOfSize 20 ((specDatums m).map some))).flatten

/-- Length of the run of consecutive successful transport calls starting
at call index `i`, looking at most `n` calls ahead. -/
def okRun (ok : Nat → Bool) : Nat → Nat → Nat
  | _, 0 => 0
  | i, n + 1 => if ok i then okRun ok (i + 1) n + 1 else 0

/-- A sample metric with one coercible field. -/
def mA : Metric :=
  { name := "cpu", tags := [], fields := [("usage", .vFloat64 1)], time := 0 }

/-- Another sample metric with one coercible field. -/
def mB : Metric :=
  { name := "mem", tags := [], fields := [("used", .vFloat64 2)], time := 0 }

/-- The stored-client state of the CloudWatch driver (its `svc` field;
`none` models a driver with no client stored). -/
structure CloudWatchState where
  svc : Option Unit
deriving DecidableEq, Repr

/-- `Connect` (cloudwatch.go lines 43-69): build a config and a fresh
client, issue the read-only `ListMetrics` test call (outcome
`listMetricsErr`, `none` = success), log on error, then store the client
on the driver unconditionally (line 66) and return the test call's
error. -/
def Connect (listMetricsErr : Option String) (c : CloudWatchState) :
    CloudWatchState × Option String :=
  ({ c with svc := some () }, listMetricsErr)

/-- `sarama.ProducerMessage` as built by `Kafka.Write` (kafka.go lines
115-121): topic, serialized value and the optional routing key. -/
structure ProducerMessage where
  topic : String
  value : String
  key : Option String
deriving DecidableEq, Repr

/-- The loop of `Kafka.Write` (kafka.go lines 112-128): for each metric
build one message whose key is the value of the routing tag when that
tag is present (unkeyed otherwise), send it, and on failure return the
formatted error at once.  `ser` models `p.String()` (the metric
serialization, implemented outside these sources); `sendRes m` is the
broker's answer to `SendMessage` (`none` = success). -/
def kafkaWriteLoop (ser : Metric → String) (topic routingTag : String)
    (sendRes : ProducerMessage → Option String) :
    List Metric → List ProducerMessage × Option String
  | [] => ([], none)
  | p :: ps =>
    match sendRes (ProducerMessage.mk topic (ser p) (List.lookup routingTag p.tags)) with
    | none =>
      (ProducerMessage.mk topic (ser p) (List.lookup routingTag p.tags) ::
          (kafkaWriteLoop ser topic routingTag sendRes ps).1,
        (kafkaWriteLoop ser topic routingTag sendRes ps).2)
    | some e =>
      ([ProducerMessage.mk topic (ser p) (List.lookup routingTag p.tags)],
        some ("FAILED to send kafka message: " ++ e ++ "\n"))

/-- `Kafka.Write` (kafka.go lines 107-130), including the early return
for an empty batch. -/
def KafkaWrite (ser : Metric → String) (topic routingTag : String)
    (sendRes : ProducerMessage → Option String) (metrics : List Metric) :
    List ProducerMessage × Option String :=
  if metrics.isEmpty then ([], none)
  else kafkaWriteLoop ser topic routingTag sendRes metrics

/-! ### Partition lemmas -/

theorem collectSome_eq_map (g : Nat → Option β) (f : Nat → β) :
    ∀ l : List Nat, (∀ i ∈ l, g i = some (f i)) → collectSome g l = some (l.map f)
  | [], _ => rfl
  | i :: is, h => by
    have hi := h i (by simp)
    have hrest := collectSome_eq_map g f is (fun j hj => h j (by simp [hj]))
    simp [collectSome, hi, hrest]

theorem mul_lt_of_lt_numPartitions {s i len : Nat} (hs : 1 ≤ s)
    (hi : i < len / s + if len % s ≠ 0 then 1 else 0) : s * i < len := by
  have hdm := Nat.div_add_mod len s
  by_cases hr : len % s = 0
  · simp only [hr, ne_eq, not_true_eq_false, if_false, Nat.add_zero] at hi
    have h2 : s * (i + 1) ≤ s * (len / s) := Nat.mul_le_mul_left s hi
    rw [Nat.mul_succ] at h2
    omega
  · simp only [hr, ne_eq, not_false_eq_true, if_true] at hi
    have h2 : s * i ≤ s * (len / s) := Nat.mul_le_mul_left s (by omega)
    omega

theorem numberOfPartitionsInt_natCast {s : Nat} (_hs : 1 ≤ s) (len : Nat) :
    numberOfPartitionsInt (s : Int) (len : Int) =
      ((len / s + if len % s ≠ 0 then 1 else 0 : Nat) : Int) := by
  unfold numberOfPartitionsInt
  rw [← Int.ofNat_tdiv, ← Int.ofNat_tmod]
  by_cases hr : len % s = 0
  · rw [hr]
    simp
  · have h1 : ((len % s : Nat) : Int) ≠ 0 := Int.natCast_ne_zero.mpr hr
    rw [if_pos h1, if_pos hr]
    push_cast
    ring

theorem partitionSlice_pos {s : Nat} (hs : 1 ≤ s) (datums : List α) {i : Nat}
    (hi : i < datums.length / s + if datums.length % s ≠ 0 then 1 else 0) :
    partitionSlice (s : Int) datums i = some ((datums.drop (s * i)).take s) := by
  have hlt : s * i < datums.length := mul_lt_of_lt_numPartitions hs hi
  unfold partitionSlice goSlice
  have hstart : (s : Int) * (i : Int) = ((s * i : Nat) : Int) := by push_cast; ring
  have hstop0 : (s : Int) * ((i : Int) + 1) = ((s * (i + 1) : Nat) : Int) := by push_cast; ring
  rw [hstart, hstop0]
  by_cases hcl : ((s * (i + 1) : Nat) : Int) > (datums.length : Int)
  · rw [if_pos hcl]
    have hbound : s * (i + 1) > datums.length := by exact_mod_cast hcl
    have hcond : (0 : Int) ≤ ((s * i : Nat) : Int) ∧
        ((s * i : Nat) : Int) ≤ (datums.length : Int) ∧
        (datums.length : Int) ≤ (datums.length : Int) :=
      ⟨Int.natCast_nonneg _, by exact_mod_cast Nat.le_of_lt hlt, le_refl _⟩
    rw [if_pos hcond]
    have htn : ((datums.length : Int) - ((s * i : Nat) : Int)).toNat = datums.length - s * i := by
      omega
    rw [Int.toNat_natCast, htn]
    rw [List.take_of_length_le (by rw [List.length_drop]),
        List.take_of_length_le (by rw [List.length_drop]; rw [Nat.mul_succ] at hbound; omega)]
  · rw [if_neg hcl]
    have hbound : s * (i + 1) ≤ datums.length := by
      have h2 := not_lt.mp hcl
      exact_mod_cast h2
    have hcond : (0 : Int) ≤ ((s * i : Nat) : Int) ∧
        ((s * i : Nat) : Int) ≤ ((s * (i + 1) : Nat) : Int) ∧
        ((s * (i + 1) : Nat) : Int) ≤ (datums.length : Int) :=
      ⟨Int.natCast_nonneg _, by exact_mod_cast Nat.mul_le_mul_left s (Nat.le_succ i),
        by exact_mod_cast hbound⟩
    rw [if_pos hcond]
    have htn : (((s * (i + 1) : Nat) : Int) - ((s * i : Nat) : Int)).toNat = s := by
      have h3 : s * (i + 1) = s * i + s := by ring
      omega
    rw [Int.toNat_natCast, htn]

theorem PartitionDatums_pos {s : Nat} (hs : 1 ≤ s) (datums : List α) :
    PartitionDatums (s : Int) datums = some (partitionOfSize s datums) := by
  unfold PartitionDatums
  rw [if_neg (by exact_mod_cast Nat.one_le_iff_ne_zero.mp hs)]
  rw [numberOfPartitionsInt_natCast hs]
  rw [if_neg (not_lt.mpr (Int.natCast_nonneg _)), Int.toNat_natCast]
  exact collectSome_eq_map _ _ _
    (fun i himem => partitionSlice_pos hs datums (List.mem_range.mp himem))

theorem numPartitions_pos_step {s len : Nat} (hs : 1 ≤ s) (hlen : 1 ≤ len) :
    len / s + (if len % s ≠ 0 then 1 else 0) =
      ((len - s) / s + (if (len - s) % s ≠ 0 then 1 else 0)) + 1 := by
  rcases Nat.lt_or_ge len s with h | h
  · rw [Nat.div_eq_of_lt h, Nat.mod_eq_of_lt h]
    have hz : len - s = 0 := by omega
    rw [hz]
    simp only [Nat.zero_div, Nat.zero_mod, ne_eq, not_true_eq_false, if_false]
    have : len ≠ 0 := by omega
    simp [this]
  · obtain ⟨m, rfl⟩ : ∃ m, len = m + s := ⟨len - s, by omega⟩
    rw [Nat.add_div_right _ (by omega), Nat.add_mod_right, Nat.add_sub_cancel]
    omega

theorem partitionOfSize_nil (s : Nat) : partitionOfSize s ([] : List α) = [] := by
  simp [partitionOfSize]

theorem partitionOfSize_cons {s : Nat} (hs : 1 ≤ s) (l : List α) (hl : l ≠ []) :
    partitionOfSize s l = l.take s :: partitionOfSize s (l.drop s) := by
  have hlen : 1 ≤ l.length := List.length_pos.mpr hl
  unfold partitionOfSize
  rw [List.length_drop, numPartitions_pos_step hs hlen, List.range_succ_eq_map]
  simp only [List.map_cons, List.map_map, Nat.mul_zero, List.drop_zero]
  congr 1
  have hfun : ((fun i => List.take s (List.drop (s * i) l)) ∘ Nat.succ) =
      fun i => List.take s (List.drop (s * i) (List.drop s l)) := by
    funext i
    rw [Function.comp_apply, List.drop_drop, Nat.mul_succ, Nat.add_comm (s * i) s]
  rw [hfun]

theorem partitionOfSize_flatten_fuel {s : Nat} (hs : 1 ≤ s) :
    ∀ (n : Nat) (l : List α), l.length ≤ n → (partitionOfSize s l).flatten = l := by
  intro n
  induction n with
  | zero =>
    intro l hl
    have hz : l = [] := List.length_eq_zero.mp (by omega)
    rw [hz, partitionOfSize_nil]
    rfl
  | succ n ih =>
    intro l hl
    by_cases hnil : l = []
    · rw [hnil, partitionOfSize_nil]; rfl
    · rw [partitionOfSize_cons hs l hnil, List.flatten_cons,
        ih (l.drop s) (by rw [List.length_drop]; have := List.length_pos.mpr hnil; omega),
        List.take_append_drop]

theorem partitionOfSize_length (s : Nat) (l : List α) :
    (partitionOfSize s l).length = l.length / s + if l.length % s ≠ 0 then 1 else 0 := by
  simp [partitionOfSize]

theorem partitionOfSize_mem_length {s : Nat} (l : List α) {p : List α}
    (hp : p ∈ partitionOfSize s l) : p.length ≤ s := by
  simp only [partitionOfSize, List.mem_map, List.mem_range] at hp
  obtain ⟨i, _, rfl⟩ := hp
  simp only [List.length_take]
  omega

theorem partitionOfSize_eq_nil_iff {s : Nat} (hs : 1 ≤ s) (l : List α) :
    partitionOfSize s l = [] ↔ l = [] := by
  constructor
  · intro h
    by_contra hnil
    rw [partitionOfSize_cons hs l hnil] at h
    exact List.cons_ne_nil _ _ h
  · intro h; rw [h, partitionOfSize_nil]

theorem partitionOfSize_getD_length_fuel {s : Nat} (hs : 1 ≤ s) :
    ∀ (n : Nat) (l : List α) (i : Nat), l.length ≤ n →
      i + 1 < (partitionOfSize s l).length → ((partitionOfSize s l).getD i []).length = s := by
  intro n
  induction n with
  | zero =>
    intro l i hl hi
    have hz : l = [] := List.length_eq_zero.mp (by omega)
    rw [hz, partitionOfSize_nil] at hi
    simp at hi
  | succ n ih =>
    intro l i hl hi
    by_cases hnil : l = []
    · rw [hnil, partitionOfSize_nil] at hi; simp at hi
    · rw [partitionOfSize_cons hs l hnil] at hi ⊢
      cases i with
      | zero =>
        rw [List.getD_cons_zero]
        simp only [List.length_cons] at hi
        have hrest : partitionOfSize s (l.drop s) ≠ [] := by
          intro hz; rw [hz] at hi; simp at hi
        have hdrop : l.drop s ≠ [] := (partitionOfSize_eq_nil_iff hs _).not.mp hrest
        have hlen : s < l.length := by
          by_contra hle
          exact hdrop (List.drop_eq_nil_of_le (by omega))
        simp only [List.length_take]
        omega
      | succ j =>
        rw [List.getD_cons_succ]
        simp only [List.length_cons] at hi
        exact ih (l.drop s) j
          (by rw [List.length_drop]; have := List.length_pos.mpr hnil; omega)
          (by omega)

theorem numPartitions_eq_ceil {s : Nat} (hs : 1 ≤ s) (len : Nat) :
    len / s + (if len % s ≠ 0 then 1 else 0) = (len + s - 1) / s := by
  have hdm := Nat.div_add_mod len s
  set q := len / s
  set r := len % s
  have hr : r < s := Nat.mod_lt _ (by omega)
  by_cases h0 : r = 0
  · have h1 : len + s - 1 = s * q + (s - 1) := by omega
    rw [h1, Nat.mul_add_div (by omega), Nat.div_eq_of_lt (by omega)]
    simp [h0]
  · have hmul : s * (q + 1) = s * q + s := by ring
    have h1 : len + s - 1 = s * (q + 1) + (r - 1) := by omega
    rw [h1, Nat.mul_add_div (by omega), Nat.div_eq_of_lt (by omega)]
    simp [h0]

/-- C4: for every sequence `S` and every `maxSize ≥ 1`, `PartitionDatums`
succeeds and the concatenation of the returned sub-sequences in order
reproduces `S` exactly; every sub-sequence has length ≤ `maxSize`, and
every sub-sequence other than the final one has length exactly `maxSize`
(only the final one may be shorter). -/
theorem partition_coverage {α : Type} (size : Int) (hsize : 1 ≤ size) (S : List α) :
    ∃ parts : List (List α),
      PartitionDatums size S = some parts ∧
      parts.flatten = S ∧
      (∀ p ∈ parts, p.length ≤ size.toNat) ∧
      (∀ i, i + 1 < parts.length → (parts.getD i []).length = size.toNat) := by
  obtain ⟨s, rfl⟩ : ∃ s : Nat, size = (s : Int) :=
    ⟨size.toNat, (Int.toNat_of_nonneg (by omega)).symm⟩
  have hs : 1 ≤ s := by exact_mod_cast hsize
  refine ⟨partitionOfSize s S, PartitionDatums_pos hs S,
    partitionOfSize_flatten_fuel hs S.length S le_rfl, ?_, ?_⟩
  · intro p hp
    rw [Int.toNat_natCast]
    exact partitionOfSize_mem_length S hp
  · intro i hi
    rw [Int.toNat_natCast]
    exact partitionOfSize_getD_length_fuel hs S.length S i le_rfl hi

theorem partition_coverage_witness :
    ∃ parts : List (List Nat),
      PartitionDatums 2 [1, 2, 3, 4, 5] = some parts ∧
      parts.flatten = [1, 2, 3, 4, 5] ∧
      (∀ p ∈ parts, p.length ≤ (2 : Int).toNat) ∧
      (∀ i, i + 1 < parts.length → (parts.getD i []).length = (2 : Int).toNat) :=
  partition_coverage 2 (by decide) [1, 2, 3, 4, 5]

/-- C5: for every `maxSize ≥ 1` the number of partitions equals
`ceil(len(S) / maxSize)` (written `(len + maxSize - 1) / maxSize` over the
naturals), and an empty input yields zero partitions, not one empty
partition. -/
theorem partition_count {α : Type} (size : Int) (hsize : 1 ≤ size) (S : List α) :
    ∃ parts : List (List α),
      PartitionDatums size S = some parts ∧
      parts.length = (S.length + size.toNat - 1) / size.toNat ∧
      (S = [] → parts = []) := by
  obtain ⟨s, rfl⟩ : ∃ s : Nat, size = (s : Int) :=
    ⟨size.toNat, (Int.toNat_of_nonneg (by omega)).symm⟩
  have hs : 1 ≤ s := by exact_mod_cast hsize
  refine ⟨partitionOfSize s S, PartitionDatums_pos hs S, ?_, ?_⟩
  · rw [Int.toNat_natCast, partitionOfSize_length, numPartitions_eq_ceil hs]
  · intro h
    rw [h, partitionOfSize_nil]

theorem tdiv_nonpos_of_neg {L size : Int} (hL : 0 ≤ L) (hneg : size < 0) :
    Int.tdiv L size ≤ 0 := by
  have h1 : Int.tdiv L size = -Int.tdiv L (-size) := by
    conv_lhs => rw [show size = -(-size) from (neg_neg size).symm]
    rw [Int.tdiv_neg]
  rw [h1, neg_nonpos]
  exact Int.tdiv_nonneg hL (by omega)

/-- C8 is false as stated: at `maxSize = -2` with three datums,
`PartitionDatums` succeeds, returning zero partitions and silently
dropping all input, and at `maxSize = 0` it panics with an integer
division by zero (`none`); no branch of the function produces a
configuration error. -/
theorem partition_invalid_size_counterexample :
    PartitionDatums (-2) [0, 1, 2] = some ([] : List (List Nat)) ∧
    PartitionDatums 0 ([0, 1, 2] : List Nat) = none := by
  decide

/-- C8 (amended): `PartitionDatums` performs no validation of `maxSize`
and produces no configuration error.  For `maxSize = 0` the Go code
panics with an integer division by zero (modelled `none`); for negative
`maxSize` it either panics (slice bounds or negative `make` length) or
returns the empty partition list, silently dropping the whole input. -/
theorem partition_invalid_size {α : Type} (size : Int) (l : List α) (hsize : size < 1) :
    (size = 0 → PartitionDatums size l = none) ∧
    (PartitionDatums size l = none ∨ PartitionDatums size l = some []) := by
  constructor
  · intro h0
    simp [PartitionDatums, h0]
  · by_cases h0 : size = 0
    · left
      simp [PartitionDatums, h0]
    · have hneg : size < 0 := by omega
      have hL : (0 : Int) ≤ (l.length : Int) := Int.natCast_nonneg _
      have htd := tdiv_nonpos_of_neg hL hneg
      unfold PartitionDatums
      rw [if_neg h0]
      by_cases hmod : Int.tmod (l.length : Int) size = 0
      · have hn : numberOfPartitionsInt size (l.length : Int) =
            Int.tdiv (l.length : Int) size := by
          simp [numberOfPartitionsInt, hmod]
        rw [hn]
        rcases lt_or_eq_of_le htd with hlt | heq
        · left
          rw [if_pos hlt]
        · right
          rw [heq, if_neg (by omega)]
          simp [collectSome]
      · have hn : numberOfPartitionsInt size (l.length : Int) =
            Int.tdiv (l.length : Int) size + 1 := by
          simp [numberOfPartitionsInt, hmod]
        rw [hn]
        rcases lt_or_eq_of_le htd with hlt | heq
        · have h2 : Int.tdiv (l.length : Int) size + 1 ≤ 0 := by omega
          rcases lt_or_eq_of_le h2 with h3 | h3
          · left
            rw [if_pos h3]
          · right
            rw [if_neg (by omega), h3]
            simp [collectSome]
        · left
          rw [heq, if_neg (by omega)]
          have hg : partitionSlice size l 0 = none := by
            unfold partitionSlice goSlice
            simp only [Nat.cast_zero, mul_zero, zero_add, mul_one]
            rw [if_neg (by omega)]
          have hr1 : ((0 : Int) + 1).toNat = 1 := by omega
          have hrange : List.range 1 = [0] := rfl
          rw [hr1, hrange]
          simp [collectSome, hg]

theorem partition_invalid_size_witness :
    (((-2 : Int) = 0 → PartitionDatums (-2) [(1 : Nat), 2, 3] = none) ∧
      (PartitionDatums (-2) [(1 : Nat), 2, 3] = none ∨
        PartitionDatums (-2) [(1 : Nat), 2, 3] = some [])) :=
  partition_invalid_size (-2) [1, 2, 3] (by decide)

theorem partition_count_witness :
    ∃ parts : List (List Nat),
      PartitionDatums 20 [1, 2] = some parts ∧
      parts.length = ([1, 2].length + (20 : Int).toNat - 1) / (20 : Int).toNat ∧
      ([1, 2] = ([] : List Nat) → parts = []) :=
  partition_count 20 (by decide) [1, 2]

/-! ### Dimension selector lemmas -/

theorem lookup_some_mem_keys {l : List (String × String)} {k v : String}
    (h : List.lookup k l = some v) : k ∈ l.map Prod.fst := by
  induction l with
  | nil => simp [List.lookup] at h
  | cons p t ih =>
    obtain ⟨a, b⟩ := p
    rw [List.lookup] at h
    cases hb : (k == a) with
    | true =>
      have hk : k = a := beq_iff_eq.mp hb
      simp [hk]
    | false =>
      rw [hb] at h
      simp only [List.map_cons, List.mem_cons]
      exact Or.inr (ih h)

theorem lookup_isSome_of_mem_keys {l : List (String × String)} {k : String}
    (h : k ∈ l.map Prod.fst) : (List.lookup k l).isSome := by
  induction l with
  | nil => simp at h
  | cons p t ih =>
    obtain ⟨a, b⟩ := p
    rw [List.lookup]
    cases hb : (k == a) with
    | true => rfl
    | false =>
      apply ih
      have hk : ¬k = a := by
        intro hk
        rw [hk] at hb
        simp at hb
      simp only [List.map_cons, List.mem_cons] at h
      rcases h with h | h
      · exact absurd h hk
      · exact h

theorem lookup_none_of_not_mem_keys {l : List (String × String)} {k : String}
    (h : k ∉ l.map Prod.fst) : List.lookup k l = none := by
  cases he : List.lookup k l with
  | none => rfl
  | some v => exact absurd (lookup_some_mem_keys he) h

theorem length_filter_ne_of_nodup {L : List String} {a : String}
    (hnd : L.Nodup) (ha : a ∈ L) :
    (L.filter (fun k => k ≠ a)).length = L.length - 1 := by
  induction L with
  | nil => simp at ha
  | cons b t ih =>
    rw [List.nodup_cons] at hnd
    by_cases hb : b = a
    · subst hb
      have ht : t.filter (fun k => k ≠ b) = t := by
        apply List.filter_eq_self.mpr
        intro x hx
        simp only [ne_eq, decide_eq_true_eq]
        exact fun hxa => hnd.1 (hxa ▸ hx)
      rw [List.filter_cons_of_neg (by simp), ht, List.length_cons]
      omega
    · have hat : a ∈ t := by
        rcases List.mem_cons.mp ha with h1 | h1
        · exact absurd h1.symm hb
        · exact h1
      have ht := ih hnd.2 hat
      have hlen : 1 ≤ t.length := List.length_pos.mpr (List.ne_nil_of_mem hat)
      rw [List.filter_cons_of_pos (by simp [hb]), List.length_cons, List.length_cons, ht]
      omega

theorem length_filter_ne_of_not_mem {L : List String} {a : String} (ha : a ∉ L) :
    (L.filter (fun k => k ≠ a)).length = L.length := by
  have ht : L.filter (fun k => k ≠ a) = L := by
    apply List.filter_eq_self.mpr
    intro x hx
    simp only [ne_eq, decide_eq_true_eq]
    exact fun hxa => ha (hxa ▸ hx)
  rw [ht]

theorem fillDimensions_eq (mTags : List (String × String)) :
    ∀ (keys : List String) (done : List Dimension) (r : Nat),
      done.length + r ≤ MaxDimensions →
      (keys.length ≤ r ∨ done.length + r = MaxDimensions) →
      fillDimensions mTags keys (done.map some ++ List.replicate r none) done.length =
        some ((done ++ (keys.take (min r keys.length)).map
              (fun k => (⟨k, (List.lookup k mTags).getD ""⟩ : Dimension))).map some ++
          List.replicate (r - keys.length) none)
  | [], done, r, hle, hcap => by
    simp [fillDimensions]
  | k :: ks, done, r, hle, hcap => by
    simp only [MaxDimensions] at hle hcap
    by_cases hbreak : MaxDimensions ≤ done.length
    · have hbreak10 : (10 : Nat) ≤ done.length := hbreak
      have hr0 : r = 0 := by omega
      subst hr0
      rw [fillDimensions, if_pos hbreak]
      simp
    · have hbreak10 : done.length < 10 := by
        simp only [MaxDimensions] at hbreak
        omega
      have hr1 : 1 ≤ r := by
        rcases hcap with h | h
        · simp only [List.length_cons] at h
          omega
        · omega
      have hlen : done.length < (done.map some ++ List.replicate r none).length := by
        simp only [List.length_append, List.length_map, List.length_replicate]
        omega
      rw [fillDimensions, if_neg hbreak]
      unfold goSet
      rw [if_pos hlen]
      simp only [Option.some_bind]
      have hset : (done.map some ++ List.replicate r none).set done.length
            (some ⟨k, (List.lookup k mTags).getD ""⟩) =
          (done ++ [(⟨k, (List.lookup k mTags).getD ""⟩ : Dimension)]).map some ++
            List.replicate (r - 1) none := by
        rw [List.set_append_right _ _ (by simp)]
        have hrep : List.replicate r (none : Option Dimension) =
            none :: List.replicate (r - 1) none := by
          conv_lhs => rw [show r = (r - 1) + 1 by omega]
          rw [List.replicate_succ]
        rw [hrep]
        simp
      rw [hset]
      have hcap2 : ks.length ≤ r - 1 ∨
          (done ++ [(⟨k, (List.lookup k mTags).getD ""⟩ : Dimension)]).length + (r - 1) =
            MaxDimensions := by
        rcases hcap with h | h
        · left
          simp only [List.length_cons] at h
          omega
        · right
          simp only [MaxDimensions, List.length_append, List.length_map]
          simp only [List.length_cons, List.length_nil]
          omega
      have hle2 : (done ++ [(⟨k, (List.lookup k mTags).getD ""⟩ : Dimension)]).length +
          (r - 1) ≤ MaxDimensions := by
        simp only [MaxDimensions, List.length_append, List.length_cons, List.length_nil]
        omega
      have hrec := fillDimensions_eq mTags ks
        (done ++ [(⟨k, (List.lookup k mTags).getD ""⟩ : Dimension)]) (r - 1) hle2 hcap2
      rw [show (done ++ [(⟨k, (List.lookup k mTags).getD ""⟩ : Dimension)]).length =
        done.length + 1 by simp] at hrec
      rw [hrec]
      have htake : (k :: ks).take (min r (ks.length + 1)) =
          k :: ks.take (min (r - 1) ks.length) := by
        rw [show min r (ks.length + 1) = min (r - 1) ks.length + 1 by omega,
          List.take_succ_cons]
      simp only [List.length_cons, htake, List.map_cons]
      rw [show r - (ks.length + 1) = (r - 1) - ks.length by omega]
      simp

theorem BuildDimensions_eq (mTags : List (String × String))
    (hnd : (mTags.map Prod.fst).Nodup) :
    BuildDimensions mTags = some ((specDimensionSelector mTags).map some) := by
  have hfle : (List.insertionSort (· ≤ ·) ((mTags.map Prod.fst).filter
      (fun k => k ≠ "host"))).length = ((mTags.map Prod.fst).filter
      (fun k => k ≠ "host")).length :=
    (List.perm_insertionSort _ _).length_eq
  cases hhost : List.lookup "host" mTags with
  | none =>
    have hBD : BuildDimensions mTags =
        fillDimensions mTags
          (List.insertionSort (· ≤ ·) ((mTags.map Prod.fst).filter (fun k => k ≠ "host")))
          (List.replicate (min mTags.length MaxDimensions) none) 0 := by
      unfold BuildDimensions
      rw [hhost]
    have hSpec : specDimensionSelector mTags =
        ([] : List Dimension) ++
          ((List.insertionSort (· ≤ ·) ((mTags.map Prod.fst).filter
              (fun k => k ≠ "host"))).take (min mTags.length MaxDimensions - 0)).map
            (fun k => (⟨k, (List.lookup k mTags).getD ""⟩ : Dimension)) := by
      unfold specDimensionSelector
      rw [hhost]
    rw [hBD, hSpec]
    have hmem : "host" ∉ mTags.map Prod.fst := by
      intro hm
      have hs := lookup_isSome_of_mem_keys hm
      rw [hhost] at hs
      simp at hs
    have hkeys : (List.insertionSort (· ≤ ·) ((mTags.map Prod.fst).filter
        (fun k => k ≠ "host"))).length = mTags.length := by
      rw [hfle, length_filter_ne_of_not_mem hmem, List.length_map]
    have hcap : (List.insertionSort (· ≤ ·) ((mTags.map Prod.fst).filter
          (fun k => k ≠ "host"))).length ≤ min mTags.length MaxDimensions ∨
        (List.nil (α := Dimension)).length + min mTags.length MaxDimensions =
          MaxDimensions := by
      rw [hkeys]
      simp only [List.length_nil, Nat.zero_add, MaxDimensions]
      omega
    have h := fillDimensions_eq mTags
      (List.insertionSort (· ≤ ·) ((mTags.map Prod.fst).filter (fun k => k ≠ "host")))
      [] (min mTags.length MaxDimensions)
      (by simp only [List.length_nil, Nat.zero_add, MaxDimensions]; omega) hcap
    rw [hkeys] at h
    have hmin : min (min mTags.length MaxDimensions) mTags.length =
        min mTags.length MaxDimensions := by omega
    have hz : min mTags.length MaxDimensions - mTags.length = 0 := by omega
    rw [hmin, hz] at h
    simp only [List.map_nil, List.nil_append, List.length_nil, List.replicate_zero,
      List.append_nil] at h
    simpa using h
  | some host =>
    have hmem : "host" ∈ mTags.map Prod.fst := lookup_some_mem_keys hhost
    have hlen1 : 1 ≤ mTags.length := by
      have h1 : 1 ≤ (mTags.map Prod.fst).length :=
        List.length_pos.mpr (List.ne_nil_of_mem hmem)
      rw [List.length_map] at h1
      exact h1
    have hkeys : (List.insertionSort (· ≤ ·) ((mTags.map Prod.fst).filter
        (fun k => k ≠ "host"))).length = mTags.length - 1 := by
      rw [hfle, length_filter_ne_of_nodup hnd hmem, List.length_map]
    have hR1 : 1 ≤ min mTags.length MaxDimensions := by
      simp only [MaxDimensions]
      omega
    have hBD : BuildDimensions mTags =
        (goSet (List.replicate (min mTags.length MaxDimensions) none) 0
            (some ⟨"host", host⟩)).bind
          (fun dims2 =>
            fillDimensions mTags
              (List.insertionSort (· ≤ ·) ((mTags.map Prod.fst).filter
                (fun k => k ≠ "host")))
              dims2 1) := by
      unfold BuildDimensions
      rw [hhost]
    have hSpec : specDimensionSelector mTags =
        [(⟨"host", host⟩ : Dimension)] ++
          ((List.insertionSort (· ≤ ·) ((mTags.map Prod.fst).filter
              (fun k => k ≠ "host"))).take (min mTags.length MaxDimensions - 1)).map
            (fun k => (⟨k, (List.lookup k mTags).getD ""⟩ : Dimension)) := by
      unfold specDimensionSelector
      rw [hhost]
    rw [hBD, hSpec]
    unfold goSet
    rw [if_pos (by simp only [List.length_replicate]; omega), Option.some_bind]
    have hsplit : (List.replicate (min mTags.length MaxDimensions)
          (none : Option Dimension)).set 0 (some ⟨"host", host⟩) =
        ([(⟨"host", host⟩ : Dimension)]).map some ++
          List.replicate (min mTags.length MaxDimensions - 1) none := by
      conv_lhs => rw [show min mTags.length MaxDimensions =
        (min mTags.length MaxDimensions - 1) + 1 by omega, List.replicate_succ]
      rw [List.set_cons_zero]
      rfl
    rw [hsplit]
    have hcap : (List.insertionSort (· ≤ ·) ((mTags.map Prod.fst).filter
          (fun k => k ≠ "host"))).length ≤ min mTags.length MaxDimensions - 1 ∨
        ([(⟨"host", host⟩ : Dimension)]).length +
          (min mTags.length MaxDimensions - 1) = MaxDimensions := by
      rw [hkeys]
      simp only [List.length_cons, List.length_nil, MaxDimensions]
      simp only [MaxDimensions] at hR1
      omega
    have h := fillDimensions_eq mTags
      (List.insertionSort (· ≤ ·) ((mTags.map Prod.fst).filter (fun k => k ≠ "host")))
      [⟨"host", host⟩] (min mTags.length MaxDimensions - 1)
      (by simp only [List.length_cons, List.length_nil, MaxDimensions]
          simp only [MaxDimensions] at hR1
          omega)
      hcap
    rw [hkeys] at h
    have hmin : min (min mTags.length MaxDimensions - 1) (mTags.length - 1) =
        min mTags.length MaxDimensions - 1 := by
      simp only [MaxDimensions]
      omega
    have hz : min mTags.length MaxDimensions - 1 - (mTags.length - 1) = 0 := by
      simp only [MaxDimensions]
      omega
    rw [hmin, hz] at h
    simp only [List.length_cons, List.length_nil, List.replicate_zero,
      List.append_nil] at h
    exact h

/-- C6: for a tag map `T` with distinct keys, `BuildDimensions` succeeds
and returns exactly `min(len(T), 10)` dimensions, all slots filled: the
pair `("host", T["host"])` occupies slot 0 whenever the `host` tag
exists, the remaining entries are other tags of `T` in ascending lexical
order of their names, and tags beyond the cap are silently dropped; the
result is precisely the specification's Dimension Selector. -/
theorem build_dimensions_selector (mTags : List (String × String))
    (hnd : (mTags.map Prod.fst).Nodup) :
    ∃ dims : List Dimension,
      BuildDimensions mTags = some (dims.map some) ∧
      dims = specDimensionSelector mTags ∧
      dims.length = min mTags.length MaxDimensions ∧
      (∀ v, List.lookup "host" mTags = some v → dims.getD 0 ⟨"", ""⟩ = ⟨"host", v⟩) ∧
      List.Sorted (· ≤ ·)
        ((dims.drop (if (List.lookup "host" mTags).isSome then 1 else 0)).map
          Dimension.name) ∧
      (∀ d ∈ dims, List.lookup d.name mTags = some d.value) := by
  have hfle : (List.insertionSort (· ≤ ·) ((mTags.map Prod.fst).filter
      (fun k => k ≠ "host"))).length = ((mTags.map Prod.fst).filter
      (fun k => k ≠ "host")).length :=
    (List.perm_insertionSort _ _).length_eq
  have hsorted : List.Sorted (· ≤ ·) (List.insertionSort (· ≤ ·)
      ((mTags.map Prod.fst).filter (fun k => k ≠ "host"))) :=
    List.sorted_insertionSort _ _
  have hmemsort : ∀ k, k ∈ List.insertionSort (· ≤ ·)
      ((mTags.map Prod.fst).filter (fun k => k ≠ "host")) →
      k ∈ mTags.map Prod.fst := by
    intro k hk
    have h2 := (List.perm_insertionSort (· ≤ ·)
      ((mTags.map Prod.fst).filter (fun j => j ≠ "host"))).mem_iff.mp hk
    exact (List.mem_filter.mp h2).1
  have hnamemap : ∀ (L : List String),
      (L.map (fun k => (⟨k, (List.lookup k mTags).getD ""⟩ : Dimension))).map
        Dimension.name = L := by
    intro L
    rw [List.map_map]
    exact List.map_id _ ▸ (by simp)
  refine ⟨specDimensionSelector mTags, BuildDimensions_eq mTags hnd, rfl, ?_, ?_, ?_, ?_⟩
  · -- length
    cases hhost : List.lookup "host" mTags with
    | none =>
      have hmem : "host" ∉ mTags.map Prod.fst := by
        intro hm
        have hs := lookup_isSome_of_mem_keys hm
        rw [hhost] at hs
        simp at hs
      have hSpec : specDimensionSelector mTags =
          ([] : List Dimension) ++
            ((List.insertionSort (· ≤ ·) ((mTags.map Prod.fst).filter
                (fun k => k ≠ "host"))).take (min mTags.length MaxDimensions - 0)).map
              (fun k => (⟨k, (List.lookup k mTags).getD ""⟩ : Dimension)) := by
        unfold specDimensionSelector
        rw [hhost]
      rw [hSpec]
      simp only [List.nil_append, List.length_map, List.length_take, Nat.sub_zero]
      rw [hfle, length_filter_ne_of_not_mem hmem, List.length_map]
      omega
    | some host =>
      have hmem : "host" ∈ mTags.map Prod.fst := lookup_some_mem_keys hhost
      have hlen1 : 1 ≤ mTags.length := by
        have h1 : 1 ≤ (mTags.map Prod.fst).length :=
          List.length_pos.mpr (List.ne_nil_of_mem hmem)
        rw [List.length_map] at h1
        exact h1
      have hSpec : specDimensionSelector mTags =
          [(⟨"host", host⟩ : Dimension)] ++
            ((List.insertionSort (· ≤ ·) ((mTags.map Prod.fst).filter
                (fun k => k ≠ "host"))).take (min mTags.length MaxDimensions - 1)).map
              (fun k => (⟨k, (List.lookup k mTags).getD ""⟩ : Dimension)) := by
        unfold specDimensionSelector
        rw [hhost]
      rw [hSpec]
      simp only [List.length_append, List.length_cons, List.length_nil, List.length_map,
        List.length_take]
      rw [hfle, length_filter_ne_of_nodup hnd hmem, List.length_map]
      simp only [MaxDimensions]
      omega
  · -- host occupies slot 0
    intro v hv
    have hSpec : specDimensionSelector mTags =
        [(⟨"host", v⟩ : Dimension)] ++
          ((List.insertionSort (· ≤ ·) ((mTags.map Prod.fst).filter
              (fun k => k ≠ "host"))).take (min mTags.length MaxDimensions - 1)).map
            (fun k => (⟨k, (List.lookup k mTags).getD ""⟩ : Dimension)) := by
      unfold specDimensionSelector
      rw [hv]
    rw [hSpec]
    rfl
  · -- remaining names sorted ascending
    cases hhost : List.lookup "host" mTags with
    | none =>
      have hSpec : specDimensionSelector mTags =
          ([] : List Dimension) ++
            ((List.insertionSort (· ≤ ·) ((mTags.map Prod.fst).filter
                (fun k => k ≠ "host"))).take (min mTags.length MaxDimensions - 0)).map
              (fun k => (⟨k, (List.lookup k mTags).getD ""⟩ : Dimension)) := by
        unfold specDimensionSelector
        rw [hhost]
      rw [hSpec]
      simp only [hhost, Option.isSome_none, Bool.false_eq_true, if_false, List.drop_zero,
        List.nil_append]
      rw [hnamemap]
      exact List.Pairwise.sublist (List.take_sublist _ _) hsorted
    | some host =>
      have hSpec : specDimensionSelector mTags =
          [(⟨"host", host⟩ : Dimension)] ++
            ((List.insertionSort (· ≤ ·) ((mTags.map Prod.fst).filter
                (fun k => k ≠ "host"))).take (min mTags.length MaxDimensions - 1)).map
              (fun k => (⟨k, (List.lookup k mTags).getD ""⟩ : Dimension)) := by
        unfold specDimensionSelector
        rw [hhost]
      rw [hSpec]
      simp only [hhost, Option.isSome_some, if_true, List.singleton_append,
        List.drop_succ_cons, List.drop_zero]
      rw [hnamemap]
      exact List.Pairwise.sublist (List.take_sublist _ _) hsorted
  · -- every returned pair is a tag of T
    intro d hd
    have htail : ∀ m, d ∈ ((List.insertionSort (· ≤ ·) ((mTags.map Prod.fst).filter
        (fun k => k ≠ "host"))).take m).map
          (fun k => (⟨k, (List.lookup k mTags).getD ""⟩ : Dimension)) →
        List.lookup d.name mTags = some d.value := by
      intro m hdm
      obtain ⟨k, hk, rfl⟩ := List.mem_map.mp hdm
      have hk2 : k ∈ mTags.map Prod.fst :=
        hmemsort k (List.mem_of_mem_take hk)
      obtain ⟨v, hv⟩ := Option.isSome_iff_exists.mp (lookup_isSome_of_mem_keys hk2)
      simp [hv]
    cases hhost : List.lookup "host" mTags with
    | none =>
      have hSpec : specDimensionSelector mTags =
          ([] : List Dimension) ++
            ((List.insertionSort (· ≤ ·) ((mTags.map Prod.fst).filter
                (fun k => k ≠ "host"))).take (min mTags.length MaxDimensions - 0)).map
              (fun k => (⟨k, (List.lookup k mTags).getD ""⟩ : Dimension)) := by
        unfold specDimensionSelector
        rw [hhost]
      rw [hSpec] at hd
      exact htail _ (by simpa using hd)
    | some host =>
      have hSpec : specDimensionSelector mTags =
          [(⟨"host", host⟩ : Dimension)] ++
            ((List.insertionSort (· ≤ ·) ((mTags.map Prod.fst).filter
                (fun k => k ≠ "host"))).take (min mTags.length MaxDimensions - 1)).map
              (fun k => (⟨k, (List.lookup k mTags).getD ""⟩ : Dimension)) := by
        unfold specDimensionSelector
        rw [hhost]
      rw [hSpec] at hd
      rcases List.mem_append.mp hd with h1 | h1
      · have hd2 : d = (⟨"host", host⟩ : Dimension) := by simpa using h1
        rw [hd2]
        exact hhost
      · exact htail _ h1

theorem build_dimensions_selector_witness :
    ∃ dims : List Dimension,
      BuildDimensions [("zone", "1"), ("host", "a"), ("region", "us")] =
        some (dims.map some) ∧
      dims = specDimensionSelector [("zone", "1"), ("host", "a"), ("region", "us")] ∧
      dims.length =
        min ([("zone", "1"), ("host", "a"), ("region", "us")] :
          List (String × String)).length MaxDimensions ∧
      (∀ v, List.lookup "host" [("zone", "1"), ("host", "a"), ("region", "us")] = some v →
        dims.getD 0 ⟨"", ""⟩ = ⟨"host", v⟩) ∧
      List.Sorted (· ≤ ·)
        ((dims.drop (if (List.lookup "host"
            [("zone", "1"), ("host", "a"), ("region", "us")]).isSome then 1 else 0)).map
          Dimension.name) ∧
      (∀ d ∈ dims, List.lookup d.name
        [("zone", "1"), ("host", "a"), ("region", "us")] = some d.value) :=
  build_dimensions_selector [("zone", "1"), ("host", "a"), ("region", "us")] (by decide)

/-! ### Datum builder lemmas -/

theorem buildLoop_eq (point : Metric) (hnd : (point.tags.map Prod.fst).Nodup) :
    ∀ (fs : List (String × FieldValue)) (done : List MetricDatum) (r : Nat),
      fs.length ≤ r →
      buildLoop point fs (done.map some ++ List.replicate r none) done.length =
        some ((done ++ fs.filterMap (fun kv =>
            (coerceValue kv.2).map (fun value =>
              mkMetricDatum point kv.1 value
                ((specDimensionSelector point.tags).map some)))).map some ++
          List.replicate (r - fs.length) none)
  | [], done, r, hle => by
    simp [buildLoop]
  | (k, v) :: rest, done, r, hle => by
    have hr1 : 1 ≤ r := by
      simp only [List.length_cons] at hle
      omega
    cases hc : coerceValue v with
    | none =>
      simp only [buildLoop, hc]
      rw [if_pos (by
        simp only [List.length_append, List.length_map, List.length_replicate]
        omega)]
      have hfm : ((k, v) :: rest).filterMap (fun kv =>
            (coerceValue kv.2).map (fun value =>
              mkMetricDatum point kv.1 value
                ((specDimensionSelector point.tags).map some))) =
          rest.filterMap (fun kv =>
            (coerceValue kv.2).map (fun value =>
              mkMetricDatum point kv.1 value
                ((specDimensionSelector point.tags).map some))) := by
        simp only [List.filterMap_cons, hc, Option.map_none']
      have hshrink : (done.map some ++ List.replicate r none).take
          ((done.map some ++ List.replicate r none).length - 1) =
          done.map some ++ List.replicate (r - 1) (none : Option MetricDatum) := by
        simp only [List.length_append, List.length_map, List.length_replicate]
        rw [show done.length + r - 1 = (done.map (some (α := MetricDatum))).length + (r - 1)
          by simp only [List.length_map]; omega]
        rw [List.take_append, List.take_replicate]
        rw [show min (r - 1) r = r - 1 by omega]
      rw [hshrink]
      rw [buildLoop_eq point hnd rest done (r - 1)
        (by simp only [List.length_cons] at hle; omega)]
      rw [hfm]
      simp only [List.length_cons]
      rw [show r - (rest.length + 1) = (r - 1) - rest.length by omega]
    | some value =>
      simp only [buildLoop, hc]
      rw [BuildDimensions_eq point.tags hnd, Option.some_bind]
      unfold goSet
      rw [if_pos (by
        simp only [List.length_append, List.length_map, List.length_replicate]
        omega), Option.some_bind]
      have hset : (done.map some ++ List.replicate r none).set done.length
            (some (mkMetricDatum point k value
              ((specDimensionSelector point.tags).map some))) =
          (done ++ [mkMetricDatum point k value
              ((specDimensionSelector point.tags).map some)]).map some ++
            List.replicate (r - 1) none := by
        rw [List.set_append_right _ _ (by simp)]
        have hrep : List.replicate r (none : Option MetricDatum) =
            none :: List.replicate (r - 1) none := by
          conv_lhs => rw [show r = (r - 1) + 1 by omega]
          rw [List.replicate_succ]
        rw [hrep]
        simp
      rw [hset]
      have hrec := buildLoop_eq point hnd rest
        (done ++ [mkMetricDatum point k value
          ((specDimensionSelector point.tags).map some)]) (r - 1)
        (by simp only [List.length_cons] at hle; omega)
      rw [show (done ++ [mkMetricDatum point k value
          ((specDimensionSelector point.tags).map some)]).length = done.length + 1
        by simp] at hrec
      rw [hrec]
      have hfm2 : ((k, v) :: rest).filterMap (fun kv =>
            (coerceValue kv.2).map (fun value =>
              mkMetricDatum point kv.1 value
                ((specDimensionSelector point.tags).map some))) =
          mkMetricDatum point k value ((specDimensionSelector point.tags).map some) ::
            rest.filterMap (fun kv =>
              (coerceValue kv.2).map (fun value =>
                mkMetricDatum point kv.1 value
                  ((specDimensionSelector point.tags).map some))) := by
        simp only [List.filterMap_cons, hc, Option.map_some']
      rw [hfm2]
      simp only [List.length_cons]
      rw [show r - (rest.length + 1) = (r - 1) - rest.length by omega]
      simp

theorem BuildMetricDatum_eq (point : Metric)
    (hnd : (point.tags.map Prod.fst).Nodup) :
    BuildMetricDatum point = some ((specDatums point).map some) := by
  have h := buildLoop_eq point hnd point.fields [] point.fields.length le_rfl
  simp only [List.map_nil, List.nil_append, List.length_nil, Nat.sub_self,
    List.replicate_zero, List.append_nil] at h
  unfold BuildMetricDatum specDatums
  exact h

theorem length_filterMap_isSome (g : α → Option β) :
    ∀ l : List α, (l.filterMap g).length = (l.filter (fun x => (g x).isSome)).length
  | [] => rfl
  | x :: t => by
    cases hg : g x with
    | none => simp [List.filterMap_cons, List.filter_cons, hg, length_filterMap_isSome g t]
    | some b => simp [List.filterMap_cons, List.filter_cons, hg, length_filterMap_isSome g t]

/-- C10: for every record with a valid tag map, whatever the iteration
order of its fields and however supported and unsupported values
interleave, `BuildMetricDatum` panics nowhere (the shrink-from-the-end
step and every index write stay in bounds) and returns a fully defined
list with exactly one Datum per numeric-coercible field; a record with
no supported fields, including an empty field map, yields the empty
list. -/
theorem build_metric_datum_safe (point : Metric)
    (hnd : (point.tags.map Prod.fst).Nodup) :
    ∃ datums : List MetricDatum,
      BuildMetricDatum point = some (datums.map some) ∧
      datums.length =
        (point.fields.filter (fun kv => (coerceValue kv.2).isSome)).length ∧
      (point.fields.filter (fun kv => (coerceValue kv.2).isSome) = [] →
        datums = []) := by
  refine ⟨specDatums point, BuildMetricDatum_eq point hnd, ?_, ?_⟩
  · unfold specDatums
    rw [length_filterMap_isSome]
    simp only [Option.isSome_map']
  · intro h
    unfold specDatums
    apply List.length_eq_zero.mp
    rw [length_filterMap_isSome]
    simp only [Option.isSome_map']
    rw [h]
    rfl

theorem build_metric_datum_safe_witness :
    ∃ datums : List MetricDatum,
      BuildMetricDatum (Metric.mk "cpu" [("host", "a")]
        [("usage", .vFloat64 42), ("idle", .vString "high"), ("n", .vInt 3)] 123) =
        some (datums.map some) ∧
      datums.length =
        ((Metric.mk "cpu" [("host", "a")]
          [("usage", .vFloat64 42), ("idle", .vString "high"), ("n", .vInt 3)]
          123).fields.filter (fun kv => (coerceValue kv.2).isSome)).length ∧
      ((Metric.mk "cpu" [("host", "a")]
          [("usage", .vFloat64 42), ("idle", .vString "high"), ("n", .vInt 3)]
          123).fields.filter (fun kv => (coerceValue kv.2).isSome) = [] →
        datums = []) :=
  build_metric_datum_safe
    (Metric.mk "cpu" [("host", "a")]
      [("usage", .vFloat64 42), ("idle", .vString "high"), ("n", .vInt 3)] 123)
    (by decide)

/-- C3 is false as stated: `int8` is an integer kind, but the coercion
switch has no `int8` case, so an `int8` field value falls to the
`default` branch and is not supported; the record yields no Datum for
it even though the claim requires `supported = true` for every integer
bit width. -/
theorem coerce_value_counterexample :
    coerceValue (FieldValue.vInt8 5) = none ∧
    BuildMetricDatum (Metric.mk "m" [] [("f", FieldValue.vInt8 5)] 0) = some [] := by
  constructor
  · rfl
  · rfl

/-- C3 (amended): Value Coercion is total and pure, but the supported
integer kinds are exactly the Go types `int`, `int32` and `int64`:
`int8`, `int16` and all unsigned kinds fall to the default branch and
are not coerced, and of the floating kinds only `float64` is coerced.
Booleans map to 1/0, timestamps to their Unix-epoch seconds; strings,
`float32`, nil and the unhandled integer kinds are unsupported and
contribute no Datum and no error. -/
theorem coerce_value_table :
    (∀ n : Int, coerceValue (.vInt n) = some (n : Rat)) ∧
    (∀ n : Int, coerceValue (.vInt32 n) = some (n : Rat)) ∧
    (∀ n : Int, coerceValue (.vInt64 n) = some (n : Rat)) ∧
    (∀ n : Int, coerceValue (.vInt8 n) = none) ∧
    (∀ n : Int, coerceValue (.vInt16 n) = none) ∧
    (∀ n : Nat, coerceValue (.vUInt n) = none) ∧
    (∀ n : Nat, coerceValue (.vUInt8 n) = none) ∧
    (∀ n : Nat, coerceValue (.vUInt16 n) = none) ∧
    (∀ n : Nat, coerceValue (.vUInt32 n) = none) ∧
    (∀ n : Nat, coerceValue (.vUInt64 n) = none) ∧
    (∀ x : Rat, coerceValue (.vFloat64 x) = some x) ∧
    (∀ x : Rat, coerceValue (.vFloat32 x) = none) ∧
    coerceValue (.vBool true) = some 1 ∧
    coerceValue (.vBool false) = some 0 ∧
    (∀ t : Int, coerceValue (.vTime t) = some (t : Rat)) ∧
    (∀ s : String, coerceValue (.vString s) = none) ∧
    coerceValue .vNil = none ∧
    (∀ name tags tm k s, BuildMetricDatum
      (Metric.mk name tags [(k, FieldValue.vString s)] tm) = some []) ∧
    (∀ name tags tm k n, BuildMetricDatum
      (Metric.mk name tags [(k, FieldValue.vInt8 n)] tm) = some []) :=
  ⟨fun _ => rfl, fun _ => rfl, fun _ => rfl, fun _ => rfl, fun _ => rfl,
    fun _ => rfl, fun _ => rfl, fun _ => rfl, fun _ => rfl, fun _ => rfl,
    fun _ => rfl, fun _ => rfl, rfl, rfl, fun _ => rfl, fun _ => rfl, rfl,
    fun _ _ _ _ _ => rfl, fun _ _ _ _ _ => rfl⟩

/-! ### Connect -/

/-- C2 is false as stated: when the session test call fails the error is
returned, but the driver's state does not remain disconnected:
`Connect` stores the freshly built client in `c.svc` unconditionally
(cloudwatch.go line 66 runs before the error is returned), so a client
is stored even on failure. -/
theorem connect_failure_counterexample :
    (Connect (some "AccessDenied") (CloudWatchState.mk none)).2 = some "AccessDenied" ∧
    ¬(Connect (some "AccessDenied") (CloudWatchState.mk none)).1.svc = none := by
  constructor
  · rfl
  · simp [Connect]

/-- C2 (amended): if the session test call fails, `Connect` returns the
error to the caller, but the driver's state is not left unchanged: the
client built during the attempt is stored on the driver regardless of
the test call's outcome. -/
theorem connect_stores_client (listMetricsErr : Option String) (c : CloudWatchState) :
    (Connect listMetricsErr c).2 = listMetricsErr ∧
    (Connect listMetricsErr c).1.svc = some () :=
  ⟨rfl, rfl⟩

/-! ### Kafka routing -/

theorem kafkaWriteLoop_all_ok (ser : Metric → String) (topic routingTag : String)
    (sendRes : ProducerMessage → Option String) (hok : ∀ m, sendRes m = none) :
    ∀ metrics : List Metric,
      kafkaWriteLoop ser topic routingTag sendRes metrics =
        (metrics.map (fun p =>
          ProducerMessage.mk topic (ser p) (List.lookup routingTag p.tags)), none)
  | [] => rfl
  | p :: ps => by
    simp only [kafkaWriteLoop, hok, List.map_cons,
      kafkaWriteLoop_all_ok ser topic routingTag sendRes hok ps]

/-- C9: in routing (queue) mode, when the broker accepts every message,
each record maps to exactly one transport send, in record order; the
send is keyed by the record's value of the configured routing tag when
that tag is present in the record's tags, and is unkeyed (`none`) when
the tag is absent. -/
theorem kafka_routing (ser : Metric → String) (topic routingTag : String)
    (sendRes : ProducerMessage → Option String) (metrics : List Metric)
    (hok : ∀ m, sendRes m = none) :
    KafkaWrite ser topic routingTag sendRes metrics =
      (metrics.map (fun p =>
        ProducerMessage.mk topic (ser p) (List.lookup routingTag p.tags)), none) := by
  unfold KafkaWrite
  by_cases he : metrics.isEmpty
  · rw [if_pos he, List.isEmpty_iff.mp he]
    rfl
  · rw [if_neg he]
    exact kafkaWriteLoop_all_ok ser topic routingTag sendRes hok metrics

theorem kafka_routing_witness :
    KafkaWrite (fun m => m.name) "telegraf" "host" (fun _ => none)
      [Metric.mk "cpu" [("host", "srv1")] [] 0, Metric.mk "disk" [] [] 0] =
      ([Metric.mk "cpu" [("host", "srv1")] [] 0, Metric.mk "disk" [] [] 0].map
        (fun p => ProducerMessage.mk "telegraf" ((fun m : Metric => m.name) p)
          (List.lookup "host" p.tags)), none) :=
  kafka_routing (fun m => m.name) "telegraf" "host" (fun _ => none)
    [Metric.mk "cpu" [("host", "srv1")] [] 0, Metric.mk "disk" [] [] 0]
    (fun _ => rfl)

/-! ### Export driver lemmas -/

theorem sendLoop_true (ok : Nat → Bool) :
    ∀ (ps : List β) (i : Nat), (sendLoop ok i ps).2 = true → (sendLoop ok i ps).1 = ps
  | [], i, _ => rfl
  | p :: ps, i, h => by
    cases hok : ok i with
    | false => simp [sendLoop, hok] at h
    | true =>
      simp only [sendLoop, hok, if_true] at h ⊢
      rw [sendLoop_true ok ps (i + 1) h]

theorem sendLoop_all_ok (ok : Nat → Bool) (hok : ∀ j, ok j = true) :
    ∀ (ps : List β) (i : Nat), sendLoop ok i ps = (ps, true)
  | [], _ => rfl
  | p :: ps, i => by
    simp only [sendLoop, hok, if_true, sendLoop_all_ok ok hok ps (i + 1)]

theorem sendLoop_append (ok : Nat → Bool) :
    ∀ (a b : List β) (i : Nat),
      sendLoop ok i (a ++ b) =
        if (sendLoop ok i a).2 then
          ((sendLoop ok i a).1 ++ (sendLoop ok (i + a.length) b).1,
            (sendLoop ok (i + a.length) b).2)
        else sendLoop ok i a
  | [], b, i => by simp [sendLoop]
  | p :: a, b, i => by
    cases hok : ok i with
    | false => simp [sendLoop, hok]
    | true =>
      simp only [List.cons_append, sendLoop, hok, if_true, List.append_eq,
        List.length_cons]
      rw [sendLoop_append ok a b (i + 1)]
      by_cases h2 : (sendLoop ok (i + 1) a).2
      · simp only [h2, if_true, List.length_cons]
        rw [show i + (a.length + 1) = i + 1 + a.length by omega]
      · simp [h2]

theorem okRun_le (ok : Nat → Bool) : ∀ (n i : Nat), okRun ok i n ≤ n
  | 0, _ => le_refl _
  | n + 1, i => by
    cases hok : ok i with
    | false => simp [okRun, hok]
    | true =>
      simp only [okRun, hok, if_true]
      have h := okRun_le ok n (i + 1)
      omega

theorem okRun_ok (ok : Nat → Bool) :
    ∀ (n i j : Nat), j < okRun ok i n → ok (i + j) = true
  | 0, i, j, h => by simp [okRun] at h
  | n + 1, i, j, h => by
    cases hok : ok i with
    | false => simp [okRun, hok] at h
    | true =>
      simp only [okRun, hok, if_true] at h
      cases j with
      | zero => simpa using hok
      | succ j2 =>
        have h3 := okRun_ok ok n (i + 1) j2 (by omega)
        rw [show i + (j2 + 1) = i + 1 + j2 by omega]
        exact h3

theorem okRun_stop (ok : Nat → Bool) :
    ∀ (n i : Nat), okRun ok i n < n → ok (i + okRun ok i n) = false
  | 0, i, h => by simp [okRun] at h
  | n + 1, i, h => by
    cases hok : ok i with
    | false => simp [okRun, hok]
    | true =>
      simp only [okRun, hok, if_true] at h ⊢
      rw [show i + (okRun ok (i + 1) n + 1) = i + 1 + okRun ok (i + 1) n by omega]
      exact okRun_stop ok n (i + 1) (by omega)

theorem sendLoop_spec (ok : Nat → Bool) :
    ∀ (ps : List β) (i : Nat),
      sendLoop ok i ps =
        (ps.take (min (okRun ok i ps.length + 1) ps.length),
          decide (okRun ok i ps.length = ps.length))
  | [], i => by simp [sendLoop, okRun]
  | p :: ps, i => by
    cases hok : ok i with
    | false =>
      simp only [sendLoop, hok, Bool.false_eq_true, if_false, List.length_cons, okRun]
      rw [show min (0 + 1) (ps.length + 1) = 0 + 1 by omega]
      simp [List.take_succ_cons]
    | true =>
      simp only [sendLoop, hok, if_true, List.length_cons, okRun]
      rw [sendLoop_spec ok ps (i + 1)]
      rw [show min (okRun ok (i + 1) ps.length + 1 + 1) (ps.length + 1) =
        min (okRun ok (i + 1) ps.length + 1) ps.length + 1 by omega]
      rw [List.take_succ_cons]
      congr 1
      exact decide_eq_decide.mpr (by omega)

theorem CloudWatchWrite_eq_sendLoop (ok : Nat → Bool) :
    ∀ (metrics : List Metric) (i : Nat),
      (∀ m ∈ metrics, (m.tags.map Prod.fst).Nodup) →
      CloudWatchWrite ok i metrics = some (sendLoop ok i (writeBatches metrics))
  | [], i, _ => by simp [CloudWatchWrite, writeBatches, sendLoop]
  | m :: ms, i, hnd => by
    have hm : (m.tags.map Prod.fst).Nodup := hnd m (by simp)
    have hWSP : WriteSinglePoint ok i m =
        some (sendLoop ok i (partitionOfSize 20 ((specDatums m).map some))) := by
      unfold WriteSinglePoint
      rw [BuildMetricDatum_eq m hm, Option.some_bind]
      have h20 : PartitionDatums maxDatumsPerCall ((specDatums m).map some) =
          some (partitionOfSize 20 ((specDatums m).map some)) := by
        have hp := PartitionDatums_pos (s := 20) (by omega) ((specDatums m).map some)
        unfold maxDatumsPerCall
        rw [show (20 : Int) = ((20 : Nat) : Int) by rfl]
        exact hp
      rw [h20, Option.some_bind]
    have hwb : writeBatches (m :: ms) =
        partitionOfSize 20 ((specDatums m).map some) ++ writeBatches ms := by
      unfold writeBatches
      rw [List.map_cons, List.flatten_cons]
    simp only [CloudWatchWrite]
    rw [hWSP, Option.some_bind, hwb, sendLoop_append]
    by_cases h2 : (sendLoop ok i (partitionOfSize 20 ((specDatums m).map some))).2
    · have hfull := sendLoop_true ok _ i h2
      rw [CloudWatchWrite_eq_sendLoop ok ms
        (i + (sendLoop ok i (partitionOfSize 20 ((specDatums m).map some))).1.length)
        (fun x hx => hnd x (by simp [hx]))]
      simp only [h2, if_true, Option.some_bind, hfull]
    · simp only [h2, if_false]
      rw [if_neg (by simp [h2])]
      have hres : sendLoop ok i (partitionOfSize 20 ((specDatums m).map some)) =
          ((sendLoop ok i (partitionOfSize 20 ((specDatums m).map some))).1,
            (sendLoop ok i (partitionOfSize 20 ((specDatums m).map some))).2) := rfl
      rw [hres]
      simp [h2]

/-- C7: during one `Write` call the transport calls are a prefix of the
full partition stream, so partitions are sent strictly in order with no
duplicate (hence no retry) and no rollback; when the result is success
every partition was sent and every call succeeded; when it is an error
(returned to the caller), the failing call is the last one issued,
every earlier call succeeded and all remaining partitions were
aborted. -/
theorem write_failure_policy (ok : Nat → Bool) (metrics : List Metric)
    (hnd : ∀ m ∈ metrics, (m.tags.map Prod.fst).Nodup) :
    ∃ calls res,
      CloudWatchWrite ok 0 metrics = some (calls, res) ∧
      calls = (writeBatches metrics).take calls.length ∧
      (res = true → calls = writeBatches metrics ∧
        ∀ j < (writeBatches metrics).length, ok j = true) ∧
      (res = false → calls.length ≤ (writeBatches metrics).length ∧
        1 ≤ calls.length ∧ ok (calls.length - 1) = false ∧
        ∀ j < calls.length - 1, ok j = true) := by
  have hW := CloudWatchWrite_eq_sendLoop ok metrics 0 hnd
  rw [sendLoop_spec] at hW
  have hcle : okRun ok 0 (writeBatches metrics).length ≤ (writeBatches metrics).length :=
    okRun_le ok (writeBatches metrics).length 0
  refine ⟨(writeBatches metrics).take
      (min (okRun ok 0 (writeBatches metrics).length + 1) (writeBatches metrics).length),
    decide (okRun ok 0 (writeBatches metrics).length = (writeBatches metrics).length),
    hW, ?_, ?_, ?_⟩
  · rw [List.length_take]
    rw [show min (min (okRun ok 0 (writeBatches metrics).length + 1)
        (writeBatches metrics).length) (writeBatches metrics).length =
      min (okRun ok 0 (writeBatches metrics).length + 1)
        (writeBatches metrics).length by omega]
  · intro hres
    have hc : okRun ok 0 (writeBatches metrics).length = (writeBatches metrics).length :=
      of_decide_eq_true hres
    constructor
    · rw [hc, show min ((writeBatches metrics).length + 1) (writeBatches metrics).length =
        (writeBatches metrics).length by omega]
      exact List.take_length _
    · intro j hj
      have h3 := okRun_ok ok (writeBatches metrics).length 0 j (by omega)
      simpa using h3
  · intro hres
    have hc : ¬okRun ok 0 (writeBatches metrics).length = (writeBatches metrics).length :=
      of_decide_eq_false hres
    have hlt : okRun ok 0 (writeBatches metrics).length < (writeBatches metrics).length :=
      by omega
    have hlen : ((writeBatches metrics).take
        (min (okRun ok 0 (writeBatches metrics).length + 1)
          (writeBatches metrics).length)).length =
        okRun ok 0 (writeBatches metrics).length + 1 := by
      rw [List.length_take]
      omega
    refine ⟨?_, ?_, ?_, ?_⟩
    · rw [hlen]
      omega
    · rw [hlen]
      omega
    · rw [hlen]
      have h3 := okRun_stop ok (writeBatches metrics).length 0 hlt
      simpa using h3
    · intro j hj
      rw [hlen] at hj
      have h3 := okRun_ok ok (writeBatches metrics).length 0 j (by omega)
      simpa using h3

theorem write_failure_policy_witness :
    ∃ calls res,
      CloudWatchWrite (fun _ => true) 0 [mA, mB] = some (calls, res) ∧
      calls = (writeBatches [mA, mB]).take calls.length ∧
      (res = true → calls = writeBatches [mA, mB] ∧
        ∀ j < (writeBatches [mA, mB]).length, (fun _ => true : Nat → Bool) j = true) ∧
      (res = false → calls.length ≤ (writeBatches [mA, mB]).length ∧
        1 ≤ calls.length ∧ (fun _ => true : Nat → Bool) (calls.length - 1) = false ∧
        ∀ j < calls.length - 1, (fun _ => true : Nat → Bool) j = true) :=
  write_failure_policy (fun _ => true) [mA, mB] (by decide)

/-- C1 is false as stated: with two records of one datum each and all
transport calls succeeding, `Write` issues two transport calls, while
partitioning all Datums of the write as one sequence would give
`ceil(2/20) = 1` call: records are partitioned and sent separately,
not together. -/
theorem write_per_record_counterexample :
    (CloudWatchWrite (fun _ => true) 0 [mA, mB]).map (fun r => r.1.length) = some 2 ∧
    ¬((CloudWatchWrite (fun _ => true) 0 [mA, mB]).map (fun r => r.1.length) =
      some (((specDatums mA).length + (specDatums mB).length + 20 - 1) / 20)) := by
  decide

/-- C1 (amended): `Write` builds and partitions each record separately
(one `WriteSinglePoint` per record), so when every transport call
succeeds the batches sent are the per-record partitions concatenated in
record order and the number of transport calls equals the sum over the
records of `ceil(datums(record)/20)`, not `ceil(totalDatums/20)` over
the whole write. -/
theorem write_per_record_partitioning (ok : Nat → Bool) (metrics : List Metric)
    (hnd : ∀ m ∈ metrics, (m.tags.map Prod.fst).Nodup)
    (hok : ∀ j, ok j = true) :
    CloudWatchWrite ok 0 metrics = some (writeBatches metrics, true) ∧
    (writeBatches metrics).length =
      (metrics.map (fun m => ((specDatums m).length + 20 - 1) / 20)).sum := by
  constructor
  · rw [CloudWatchWrite_eq_sendLoop ok metrics 0 hnd, sendLoop_all_ok ok hok]
  · unfold writeBatches
    rw [List.length_flatten, List.map_map]
    congr 1
    apply List.map_congr_left
    intro m _
    simp only [Function.comp_apply]
    rw [partitionOfSize_length, numPartitions_eq_ceil (by omega), List.length_map]

theorem write_per_record_partitioning_witness :
    CloudWatchWrite (fun _ => true) 0 [mA, mB] = some (writeBatches [mA, mB], true) ∧
    (writeBatches [mA, mB]).length =
      ([mA, mB].map (fun m => ((specDatums m).length + 20 - 1) / 20)).sum :=
  write_per_record_partitioning (fun _ => true) [mA, mB] (by decide) (fun _ => rfl)

end Telegraf
